import Mathlib

/-!
Verification of the git daily-report generator (git_daily_report.py).

The script shells out to git, groups a day's commits by branch and renders a
textual report, optionally forwarding it to a summarization API.  The
embedding models the external world as oracles: `run` maps a git command
line to its stripped stdout (`none` = the command ran and exited non-zero,
a `subprocess.CalledProcessError`; the distinct uncaught-exception path of a
missing git binary is modelled separately by `CmdOutcome`), `template` is the
content of prompt_template.txt (`none` = the file is absent), `gpt` maps a
prompt to the API response (`none` = the call raised).  Machine effects —
queries issued, lines printed, error logs, process exit — are recorded as an
explicit event trace.
-/

/-! ## Git command lines, as GitClient builds them -/

def usernameCmd : List String := ["config", "user.name"]

def detailsCmd (commit : String) : List String :=
  ["show", "-s", "--pretty=format:• %h %ad %s", "--date=short", commit]

/-- Python `self.config.author_email or author`: an unset or empty email falls
back to the resolved user name. -/
def authorFilter (emailOpt : Option String) (author : String) : String :=
  match emailOpt with
  | some e => if e = "" then author else e
  | none => author

def logAllCmd (since untilS af : String) : List String :=
  ["log", "--all", "--since=" ++ since, "--until=" ++ untilS,
    "--author=" ++ af, "--pretty=format:%H"]

def logDevelopCmd (since untilS af : String) : List String :=
  ["log", "develop", "--since=" ++ since, "--until=" ++ untilS,
    "--author=" ++ af, "--pretty=format:%H"]

def branchesCmd (commit : String) : List String := ["branch", "--contains", commit]

/-! ## Output parsing, as the GitClient methods do it -/

/-- Python `output.split("\n")`: cut at every newline, keeping empty pieces
(`""` splits to `[""]`). -/
def splitLinesAux : List Char → List Char → List String
  | acc, [] => [String.mk acc.reverse]
  | acc, c :: rest =>
    if c = '\n' then String.mk acc.reverse :: splitLinesAux [] rest
    else splitLinesAux (c :: acc) rest

def splitLines (s : String) : List String := splitLinesAux [] s.toList

/-- `list(sorted(set(filter(None, output.split("\n")))))` of
`get_commits_by_author`. -/
def parseCommitList (output : String) : List String :=
  List.insertionSort (fun a b => a ≤ b)
    (((splitLines output).filter (fun s => decide (s ≠ ""))).dedup)

/-- `set(filter(None, output.split("\n")))` of `get_develop_commits`: the
Python set is modelled as a duplicate-free list (the set's iteration order is
unspecified; the model fixes one). -/
def parseCommitSet (output : String) : List String :=
  ((splitLines output).filter (fun s => decide (s ≠ ""))).dedup

/-- Python `b.strip().lstrip("* ")` applied to one line of `git branch`
output: `String.trim` is `strip()`, then leading stars and blanks go. -/
def lstripStarSpace (s : String) : String :=
  String.mk (s.toList.dropWhile (fun c => c == '*' || c == ' '))

/-- The list comprehension of `get_commit_branches`. -/
def parseBranches (output : String) : List String :=
  ((splitLines output).filter (fun b => decide (b.trim ≠ ""))).map
    (fun b => lstripStarSpace b.trim)

/-! ## GitClient methods over the command oracle -/

/-- `get_username`: a non-zero exit of `git config user.name` is fatal
(`sys.exit(1)`), modelled as `Except.error 1`. -/
def get_username (run : List String → Option String) : Except Nat String :=
  match run usernameCmd with
  | some s => Except.ok s
  | none => Except.error 1

/-- `get_commit_details`: `None` when the command exits non-zero. -/
def get_commit_details (run : List String → Option String) (commit : String) :
    Option String :=
  run (detailsCmd commit)

/-- `get_commits_by_author`: empty list when the command exits non-zero. -/
def get_commits_by_author (run : List String → Option String)
    (emailOpt : Option String) (since untilS author : String) : List String :=
  match run (logAllCmd since untilS (authorFilter emailOpt author)) with
  | some out => parseCommitList out
  | none => []

/-- `get_develop_commits`: empty set when the command exits non-zero. -/
def get_develop_commits (run : List String → Option String)
    (emailOpt : Option String) (since untilS author : String) : List String :=
  match run (logDevelopCmd since untilS (authorFilter emailOpt author)) with
  | some out => parseCommitSet out
  | none => []

/-- `get_commit_branches`: empty list when the command exits non-zero. -/
def get_commit_branches (run : List String → Option String) (commit : String) :
    List String :=
  match run (branchesCmd commit) with
  | some out => parseBranches out
  | none => []

/-! ## The classifier core of `collect_commits_info` -/

/-- The branch the classification loop assigns to `commit`: skipped when it is
in the develop set, otherwise the first containing branch that is not
"develop" (the loop `break`s at the first such branch). -/
def selectBranch (dc : List String) (gb : String → List String) (commit : String) :
    Option String :=
  if commit ∈ dc then none
  else (gb commit).find? (fun b => decide (b ≠ "develop"))

/-- `branch_commits[branch].append(commit)` on an insertion-ordered
association list (Python `defaultdict(list)` preserves key insertion order). -/
def addToGroup (groups : List (String × List String)) (b commit : String) :
    List (String × List String) :=
  match groups with
  | [] => [(b, [commit])]
  | (b0, cs) :: rest =>
    if b0 = b then (b0, cs ++ [commit]) :: rest
    else (b0, cs) :: addToGroup rest b commit

/-- One iteration of the classification loop in `collect_commits_info`. -/
def classifyStep (dc : List String) (gb : String → List String)
    (groups : List (String × List String)) (commit : String) :
    List (String × List String) :=
  if commit ∈ dc then groups
  else
    match (gb commit).find? (fun b => decide (b ≠ "develop")) with
    | some b => addToGroup groups b commit
    | none => groups

/-- The `branch_commits` dictionary after the classification loop. -/
def buildBranchCommits (ch dc : List String) (gb : String → List String) :
    List (String × List String) :=
  ch.foldl (classifyStep dc gb) []

/-- Lines one group contributes: header, a detail line per commit whose
lookup succeeds, then the blank separator. -/
def renderGroup (gd : String → Option String) (b : String) (cs : List String) :
    List String :=
  (("🔀 Branch: " ++ b) :: cs.filterMap gd) ++ [""]

/-- `ReportGenerator.collect_commits_info`, as a pure function of the already
fetched commit list `ch`, develop set `dc`, and the branch/detail lookups. -/
def collect_commits_info (ch dc : List String) (gb : String → List String)
    (gd : String → Option String) : List String :=
  if ch.isEmpty then []
  else
    (if dc.isEmpty then [] else renderGroup gd "develop" dc) ++
      (buildBranchCommits ch dc gb).foldl
        (fun acc p => acc ++ (if p.2.isEmpty then [] else renderGroup gd p.1 p.2)) []

/-- The branch groups of one report: the develop group first when the develop
set is non-empty, then the classified groups. -/
def commitGroups (ch dc : List String) (gb : String → List String) :
    List (String × List String) :=
  (if dc.isEmpty then [] else [("develop", dc)]) ++ buildBranchCommits ch dc gb

/-! ## First-seen order (specification helper) -/

/-- `firstSeenAux seen l`: the elements of `l` outside `seen`, each kept at
its first occurrence. -/
def firstSeenAux : List String → List String → List String
  | _, [] => []
  | seen, b :: rest =>
    if b ∈ seen then firstSeenAux seen rest
    else b :: firstSeenAux (b :: seen) rest

/-- The elements of `l` in first-occurrence order. -/
def firstSeen (l : List String) : List String := firstSeenAux [] l

/-- The group contents the classification loop is expected to produce: one
entry per selected branch in first-seen order, holding the commits assigned
to it in input order. -/
def groupSpec (ch dc : List String) (gb : String → List String) :
    List (String × List String) :=
  (firstSeen (ch.filterMap (selectBranch dc gb))).map
    (fun b => (b, ch.filter (fun c => decide (selectBranch dc gb c = some b))))

/-! ## The traced run model -/

/-- One observable effect of a run: a git invocation, the template read, a
line printed, the summarization call, or a `logger.error` message. -/
inductive Event where
  | git : List String → Event
  | loadTemplate : Event
  | print : String → Event
  | gptCall : String → Event
  | logError : Event
deriving DecidableEq

/-- How a run ends: a normal return, or `sys.exit` with a code. -/
inductive Outcome where
  | normal : Outcome
  | exited : Nat → Outcome
deriving DecidableEq

/-- The external world one run sees. -/
structure World where
  run : List String → Option String
  template : Option String
  gpt : String → Option String
  apiKey : Option String

/-- `ChatGPTClient.__init__`: `os.getenv` yielding nothing, or an empty
string (falsy in Python), exits with code 1. -/
def chatGPTClientInit (apiKey : Option String) : Except Nat Unit :=
  match apiKey with
  | none => Except.error 1
  | some k => if k = "" then Except.error 1 else Except.ok ()

/-- `ChatGPTClient.generate_report`: on an API failure the client logs the
error and re-raises. -/
def chatgpt_generate_report (gpt : String → Option String) (prompt : String) :
    Option String × List Event :=
  match gpt prompt with
  | some resp => (some resp, [Event.gptCall prompt])
  | none => (none, [Event.gptCall prompt, Event.logError])

/-- `collect_commits_info` with its query trace: the author log first; if it
is empty the function returns at once, otherwise the develop log, a detail
query per develop commit, a branch query per remaining commit (in input
order), and a detail query per commit of each rendered group. -/
def collect_commits_info_run (run : List String → Option String)
    (emailOpt : Option String) (since untilS author : String) :
    List String × List Event :=
  let af := authorFilter emailOpt author
  let ch := get_commits_by_author run emailOpt since untilS author
  if ch.isEmpty then ([], [Event.git (logAllCmd since untilS af)])
  else
    let dc := get_develop_commits run emailOpt since untilS author
    let gb := fun c => get_commit_branches run c
    let devEv := if dc.isEmpty then [] else dc.map (fun c => Event.git (detailsCmd c))
    let classEv := (ch.filter (fun c => decide (c ∉ dc))).map
      (fun c => Event.git (branchesCmd c))
    let rendEv := (buildBranchCommits ch dc gb).foldl
      (fun acc p =>
        acc ++ (if p.2.isEmpty then [] else p.2.map (fun c => Event.git (detailsCmd c)))) []
    (collect_commits_info ch dc gb (get_commit_details run),
      Event.git (logAllCmd since untilS af) ::
        Event.git (logDevelopCmd since untilS af) :: (devEv ++ (classEv ++ rendEv)))

def promptHeaderOut : String := "\n📤 Sending prompt to ChatGPT API:\n"

def promptHeaderIn : String := "\n📥 Response from ChatGPT API:\n"

/-- The prompt `generate_report` assembles:
`prompt_template.format(commits_text=...)` with the single placeholder. -/
def assemblePrompt (tmpl : String) (commitsInfo : List String) : String :=
  tmpl.replace "\x7bcommits_text\x7d" (String.intercalate "\n" commitsInfo)

/-- `ReportGenerator.generate_report`: identity lookup (fatal on failure),
collection, early return on an empty listing, template load (fatal when the
file is absent), then either a plain print of the prompt or the GPT path,
whose failure is logged by the client and again by the generator but ends
the run normally. -/
def generate_report (w : World) (emailOpt : Option String) (since untilS : String)
    (use_gpt : Bool) : List Event × Outcome :=
  match get_username w.run with
  | Except.error c => ([Event.git usernameCmd], Outcome.exited c)
  | Except.ok author =>
    let r := collect_commits_info_run w.run emailOpt since untilS author
    let ev := Event.git usernameCmd :: r.2
    if r.1.isEmpty then (ev, Outcome.normal)
    else
      match w.template with
      | none => (ev ++ [Event.loadTemplate], Outcome.exited 1)
      | some tmpl =>
        let prompt := assemblePrompt tmpl r.1
        let ev := ev ++ [Event.loadTemplate]
        if use_gpt then
          let ev := ev ++ [Event.print promptHeaderOut, Event.print prompt,
            Event.print promptHeaderIn]
          match chatgpt_generate_report w.gpt prompt with
          | (some resp, gev) => (ev ++ (gev ++ [Event.print resp]), Outcome.normal)
          | (none, gev) => (ev ++ (gev ++ [Event.logError]), Outcome.normal)
        else (ev ++ [Event.print prompt], Outcome.normal)

/-- `main`: `ReportGenerator.__init__` constructs the ChatGPT client before
`generate_report` runs, whether or not `--use-gpt` was given. -/
def main_run (w : World) (emailOpt : Option String) (since untilS : String)
    (use_gpt : Bool) : List Event × Outcome :=
  match chatGPTClientInit w.apiKey with
  | Except.error c => ([], Outcome.exited c)
  | Except.ok _ => generate_report w emailOpt since untilS use_gpt

/-! ## Lemmas about first-seen order -/

theorem mem_firstSeenAux {a : String} :
    ∀ {l seen : List String}, a ∈ firstSeenAux seen l ↔ a ∈ l ∧ a ∉ seen := by
  intro l
  induction l with
  | nil => intro seen; simp [firstSeenAux]
  | cons b rest ih =>
    intro seen
    by_cases hb : b ∈ seen
    · rw [firstSeenAux, if_pos hb, ih]
      constructor
      · exact fun h => ⟨List.mem_cons_of_mem _ h.1, h.2⟩
      · rintro ⟨hab, hs⟩
        rcases List.mem_cons.mp hab with rfl | ha
        · exact absurd hb hs
        · exact ⟨ha, hs⟩
    · rw [firstSeenAux, if_neg hb]
      constructor
      · intro h
        rcases List.mem_cons.mp h with rfl | h2
        · exact ⟨List.mem_cons_self _ _, hb⟩
        · obtain ⟨ha, hs⟩ := ih.mp h2
          exact ⟨List.mem_cons_of_mem _ ha,
            fun hx => hs (List.mem_cons_of_mem _ hx)⟩
      · rintro ⟨hab, hs⟩
        rcases List.mem_cons.mp hab with rfl | ha
        · exact List.mem_cons_self _ _
        · by_cases hab2 : a = b
          · exact hab2 ▸ List.mem_cons_self _ _
          · refine List.mem_cons_of_mem _ (ih.mpr ⟨ha, ?_⟩)
            intro hx
            rcases List.mem_cons.mp hx with h3 | h3
            · exact hab2 h3
            · exact hs h3

theorem nodup_firstSeenAux : ∀ (l seen : List String), (firstSeenAux seen l).Nodup := by
  intro l
  induction l with
  | nil => intro seen; simp [firstSeenAux]
  | cons b rest ih =>
    intro seen
    by_cases hb : b ∈ seen
    · rw [firstSeenAux, if_pos hb]
      exact ih seen
    · rw [firstSeenAux, if_neg hb]
      refine List.nodup_cons.mpr ⟨?_, ih (b :: seen)⟩
      intro hmem
      exact (mem_firstSeenAux.mp hmem).2 (List.mem_cons_self b seen)

theorem firstSeenAux_append_singleton (l : List String) :
    ∀ (seen : List String) (b : String),
      firstSeenAux seen (l ++ [b]) =
        firstSeenAux seen l ++ (if b ∈ seen ∨ b ∈ l then [] else [b]) := by
  induction l with
  | nil =>
    intro seen b
    by_cases hb : b ∈ seen <;> simp [firstSeenAux, hb]
  | cons a rest ih =>
    intro seen b
    by_cases ha : a ∈ seen
    · rw [List.cons_append, firstSeenAux, if_pos ha, firstSeenAux, if_pos ha, ih]
      by_cases hba : b = a
      · subst hba
        simp [ha, List.mem_cons]
      · simp [List.mem_cons, hba]
    · rw [List.cons_append, firstSeenAux, if_neg ha, firstSeenAux, if_neg ha, ih,
        List.cons_append]
      by_cases hba : b = a
      · subst hba
        simp [List.mem_cons]
      · simp [List.mem_cons, hba, or_assoc]

theorem mem_firstSeen {a : String} {l : List String} : a ∈ firstSeen l ↔ a ∈ l := by
  simp [firstSeen, mem_firstSeenAux]

theorem nodup_firstSeen (l : List String) : (firstSeen l).Nodup :=
  nodup_firstSeenAux l []

theorem firstSeen_append_singleton (l : List String) (b : String) :
    firstSeen (l ++ [b]) = firstSeen l ++ (if b ∈ l then [] else [b]) := by
  simp [firstSeen, firstSeenAux_append_singleton]

/-! ## Lemmas about the grouping step -/

theorem addToGroup_not_mem :
    ∀ (groups : List (String × List String)) (b commit : String),
      b ∉ groups.map Prod.fst →
      addToGroup groups b commit = groups ++ [(b, [commit])] := by
  intro groups
  induction groups with
  | nil => intro b commit _; rfl
  | cons p rest ih =>
    intro b commit h
    obtain ⟨b0, cs⟩ := p
    simp only [List.map_cons, List.mem_cons] at h
    push_neg at h
    have hne : ¬ b0 = b := fun he => h.1 he.symm
    rw [addToGroup, if_neg hne, ih b commit h.2, List.cons_append]

theorem addToGroup_map (l : List String) (f : String → List String) (b commit : String)
    (hl : l.Nodup) (hb : b ∈ l) :
    addToGroup (l.map (fun x => (x, f x))) b commit =
      l.map (fun x => (x, if x = b then f x ++ [commit] else f x)) := by
  induction l with
  | nil => cases hb
  | cons a rest ih =>
    by_cases hab : a = b
    · subst hab
      rw [List.map_cons, addToGroup, if_pos rfl, List.map_cons, if_pos rfl]
      have hnot : a ∉ rest := (List.nodup_cons.mp hl).1
      have hrest : rest.map (fun x => (x, if x = a then f x ++ [commit] else f x)) =
          rest.map (fun x => (x, f x)) := by
        refine List.map_congr_left ?_
        intro x hx
        have hxa : ¬ x = a := fun he => hnot (he ▸ hx)
        rw [if_neg hxa]
      rw [hrest]
    · have hbrest : b ∈ rest := by
        rcases List.mem_cons.mp hb with h | h
        · exact absurd h.symm hab
        · exact h
      rw [List.map_cons, addToGroup, if_neg hab, List.map_cons,
        ih (List.nodup_cons.mp hl).2 hbrest, if_neg hab]

theorem classifyStep_eq_selectBranch (dc : List String) (gb : String → List String)
    (groups : List (String × List String)) (commit : String) :
    classifyStep dc gb groups commit =
      match selectBranch dc gb commit with
      | some b => addToGroup groups b commit
      | none => groups := by
  unfold classifyStep selectBranch
  by_cases h : commit ∈ dc
  · rw [if_pos h, if_pos h]
  · rw [if_neg h, if_neg h]

theorem filter_sel_eq_nil {ch : List String} {sel : String → Option String} {b : String}
    (h : b ∉ ch.filterMap sel) :
    ch.filter (fun c => decide (sel c = some b)) = [] := by
  refine List.filter_eq_nil_iff.mpr ?_
  intro a ha hsel
  exact h (List.mem_filterMap.mpr ⟨a, ha, of_decide_eq_true hsel⟩)

/-- The classification loop computes exactly `groupSpec`: one group per
selected branch in first-seen order, each holding its commits in input
order. -/
theorem buildBranchCommits_eq (ch dc : List String) (gb : String → List String) :
    buildBranchCommits ch dc gb = groupSpec ch dc gb := by
  induction ch using List.reverseRecOn with
  | nil => rfl
  | append_singleton ch c ih =>
    have hfold : buildBranchCommits (ch ++ [c]) dc gb =
        classifyStep dc gb (buildBranchCommits ch dc gb) c := by
      simp [buildBranchCommits, List.foldl_append]
    rw [hfold, ih, classifyStep_eq_selectBranch]
    rcases hsel : selectBranch dc gb c with _ | b0
    · simp only [groupSpec, List.filterMap_append, List.filterMap_cons, hsel,
        List.filterMap_nil, List.append_nil, List.filter_append, List.filter_cons,
        List.filter_nil]
      refine (List.map_congr_left ?_).symm
      intro b _
      simp [hsel]
    · simp only [groupSpec, List.filterMap_append, List.filterMap_cons, hsel,
        List.filterMap_nil, firstSeen_append_singleton]
      by_cases hb : b0 ∈ ch.filterMap (selectBranch dc gb)
      · rw [if_pos hb, List.append_nil,
          addToGroup_map _ _ _ _ (nodup_firstSeen _) (mem_firstSeen.mpr hb)]
        refine List.map_congr_left ?_
        intro b _
        by_cases hbb : b = b0
        · subst hbb
          simp [List.filter_append, List.filter_cons, hsel]
        · have hbb2 : b0 ≠ b := fun he => hbb he.symm
          simp [List.filter_append, List.filter_cons, hsel, hbb, hbb2]
      · rw [if_neg hb]
        have hkeys : b0 ∉ (List.map
            (fun b => (b, ch.filter (fun c => decide (selectBranch dc gb c = some b))))
            (firstSeen (ch.filterMap (selectBranch dc gb)))).map Prod.fst := by
          simp only [List.map_map]
          intro hmem
          have : b0 ∈ firstSeen (ch.filterMap (selectBranch dc gb)) := by
            simpa [Function.comp] using hmem
          exact hb (mem_firstSeen.mp this)
        rw [addToGroup_not_mem _ _ _ hkeys, List.map_append, List.map_cons, List.map_nil]
        congr 1
        · refine List.map_congr_left ?_
          intro b hbmem
          have hbs : b ∈ ch.filterMap (selectBranch dc gb) := mem_firstSeen.mp hbmem
          have hne : b0 ≠ b := fun he => hb (he ▸ hbs)
          simp [List.filter_append, List.filter_cons, hsel, hne]
        · rw [List.filter_append, filter_sel_eq_nil hb]
          simp [List.filter_cons, hsel]

theorem buildBranchCommits_keys (ch dc : List String) (gb : String → List String) :
    (buildBranchCommits ch dc gb).map Prod.fst =
      firstSeen (ch.filterMap (selectBranch dc gb)) := by
  rw [buildBranchCommits_eq]
  simp [groupSpec, List.map_map, Function.comp_def]

theorem buildBranchCommits_mem_spec {ch dc : List String} {gb : String → List String}
    {p : String × List String} (hp : p ∈ buildBranchCommits ch dc gb) :
    p.2 = ch.filter (fun c => decide (selectBranch dc gb c = some p.1)) := by
  rw [buildBranchCommits_eq] at hp
  obtain ⟨b, _, rfl⟩ := List.mem_map.mp hp
  rfl

theorem sel_of_mem_buildBranchCommits {ch dc : List String} {gb : String → List String}
    {p : String × List String} {c : String}
    (hp : p ∈ buildBranchCommits ch dc gb) (hc : c ∈ p.2) :
    c ∈ ch ∧ selectBranch dc gb c = some p.1 := by
  rw [buildBranchCommits_mem_spec hp] at hc
  have h := List.mem_filter.mp hc
  exact ⟨h.1, of_decide_eq_true h.2⟩

theorem foldl_append_out {α β : Type} (g : β → List α) :
    ∀ (l : List β) (init : List α),
      l.foldl (fun acc p => acc ++ g p) init =
        init ++ l.foldl (fun acc p => acc ++ g p) [] := by
  intro l
  induction l with
  | nil => intro init; simp
  | cons p rest ih =>
    intro init
    rw [List.foldl_cons, List.foldl_cons, ih, ih (List.nil ++ g p)]
    simp

/-- The rendered listing is the group-by-group rendering of `commitGroups`. -/
theorem collect_commits_info_eq_groups (ch dc : List String) (gb : String → List String)
    (gd : String → Option String) :
    collect_commits_info ch dc gb gd =
      if ch.isEmpty then []
      else (commitGroups ch dc gb).foldl
        (fun acc p => acc ++ (if p.2.isEmpty then [] else renderGroup gd p.1 p.2)) [] := by
  unfold collect_commits_info commitGroups
  by_cases hch : ch.isEmpty
  · rw [if_pos hch, if_pos hch]
  · rw [if_neg hch, if_neg hch]
    by_cases hdc : dc.isEmpty
    · rw [if_pos hdc, if_pos hdc]
      simp
    · rw [if_neg hdc, if_neg hdc]
      have hdc2 : dc ≠ [] := by simpa [List.isEmpty_iff] using hdc
      simp only [List.singleton_append, List.foldl_cons, List.nil_append,
        List.isEmpty_iff, hdc2, if_false]
      exact (foldl_append_out _ _ _).symm

theorem filter_map_single {α β : Type} (l : List α) (f : α → β) (q : β → Bool)
    (b : α) (hl : l.Nodup) (hb : b ∈ l)
    (hq : ∀ x ∈ l, (q (f x) = true ↔ x = b)) :
    (l.map f).filter q = [f b] := by
  induction l with
  | nil => cases hb
  | cons a rest ih =>
    obtain ⟨hanotin, hrest⟩ := List.nodup_cons.mp hl
    by_cases hab : a = b
    · subst hab
      have hqa : q (f a) = true := (hq a (List.mem_cons_self a rest)).mpr rfl
      have hnil : (rest.map f).filter q = [] := by
        refine List.filter_eq_nil_iff.mpr ?_
        intro y hy hqy
        obtain ⟨x, hx, rfl⟩ := List.mem_map.mp hy
        have hxa : x = a := (hq x (List.mem_cons_of_mem _ hx)).mp hqy
        exact hanotin (hxa ▸ hx)
      rw [List.map_cons, List.filter_cons, if_pos hqa, hnil]
    · have hqa : q (f a) = false := by
        rcases Bool.eq_false_or_eq_true (q (f a)) with h | h
        · exact absurd ((hq a (List.mem_cons_self a rest)).mp h) hab
        · exact h
      have hbrest : b ∈ rest := by
        rcases List.mem_cons.mp hb with h | h
        · exact absurd h.symm hab
        · exact h
      rw [List.map_cons, List.filter_cons, if_neg (by simp [hqa])]
      exact ih hrest hbrest (fun x hx => hq x (List.mem_cons_of_mem _ hx))

/-! ## Claims about the classifier -/

/-- C1: with duplicate-free inputs (the commit list is sorted-deduplicated,
the develop set is a set), a commit appearing anywhere in the grouped
structure lies in exactly one group: the develop group when it is in the
develop set, otherwise the group of the first non-develop branch of its
containing-branch list; and it is listed once in that group. -/
theorem commit_in_exactly_one_group (ch dc : List String) (gb : String → List String)
    (c : String) (hch : ch.Nodup) (hdc : dc.Nodup)
    (hc : ∃ p ∈ commitGroups ch dc gb, c ∈ p.2) :
    ((commitGroups ch dc gb).filter (fun p => decide (c ∈ p.2))).length = 1 ∧
    ∀ p ∈ commitGroups ch dc gb, c ∈ p.2 →
      ((if c ∈ dc then p.1 = "develop"
        else (gb c).find? (fun b => decide (b ≠ "develop")) = some p.1) ∧
       p.2.count c = 1) := by
  by_cases hcd : c ∈ dc
  · have hsel : selectBranch dc gb c = none := by rw [selectBranch, if_pos hcd]
    have hdcne : dc.isEmpty = false := by
      cases dc with
      | nil => cases hcd
      | cons a l => rfl
    have hbuildnil :
        (buildBranchCommits ch dc gb).filter (fun p => decide (c ∈ p.2)) = [] := by
      refine List.filter_eq_nil_iff.mpr ?_
      intro p hp hcp
      have h := sel_of_mem_buildBranchCommits hp (of_decide_eq_true hcp)
      rw [hsel] at h
      cases h.2
    have hcg : commitGroups ch dc gb = ("develop", dc) :: buildBranchCommits ch dc gb := by
      unfold commitGroups
      rw [hdcne]
      rfl
    constructor
    · rw [hcg]
      simp [List.filter_cons, hcd, hbuildnil]
    · intro p hp hcp
      rw [hcg] at hp
      rcases List.mem_cons.mp hp with rfl | hbuild
      · exact ⟨by simp [hcd], List.count_eq_one_of_mem hdc hcp⟩
      · have h := sel_of_mem_buildBranchCommits hbuild hcp
        rw [hsel] at h
        cases h.2
  · obtain ⟨p0, hp0, hcp0⟩ := hc
    have hp0build : p0 ∈ buildBranchCommits ch dc gb := by
      unfold commitGroups at hp0
      rcases List.mem_append.mp hp0 with hdev | hbuild
      · by_cases hdcE : dc.isEmpty
        · rw [if_pos hdcE] at hdev
          cases hdev
        · rw [if_neg hdcE] at hdev
          have he := List.mem_singleton.mp hdev
          subst he
          exact absurd hcp0 hcd
      · exact hbuild
    obtain ⟨hcch, hselc⟩ := sel_of_mem_buildBranchCommits hp0build hcp0
    have hb0mem : p0.1 ∈ ch.filterMap (selectBranch dc gb) :=
      List.mem_filterMap.mpr ⟨c, hcch, hselc⟩
    have hq : ∀ x ∈ firstSeen (ch.filterMap (selectBranch dc gb)),
        (decide (c ∈ ch.filter (fun c2 => decide (selectBranch dc gb c2 = some x))) = true
          ↔ x = p0.1) := by
      intro x _
      constructor
      · intro hqx
        have hcf := of_decide_eq_true hqx
        have h2 : selectBranch dc gb c = some x :=
          of_decide_eq_true (List.mem_filter.mp hcf).2
        rw [hselc] at h2
        exact (Option.some.inj h2).symm
      · rintro rfl
        exact decide_eq_true
          (List.mem_filter.mpr ⟨hcch, decide_eq_true hselc⟩)
    have hsingle : (buildBranchCommits ch dc gb).filter (fun p => decide (c ∈ p.2)) =
        [(p0.1, ch.filter (fun c2 => decide (selectBranch dc gb c2 = some p0.1)))] := by
      rw [buildBranchCommits_eq]
      unfold groupSpec
      exact filter_map_single _ _ _ p0.1 (nodup_firstSeen _)
        (mem_firstSeen.mpr hb0mem) hq
    have hfilterdev :
        (if dc.isEmpty then ([] : List (String × List String)) else [("develop", dc)]).filter
          (fun p => decide (c ∈ p.2)) = [] := by
      by_cases hdcE : dc.isEmpty
      · rw [if_pos hdcE]
        rfl
      · rw [if_neg hdcE]
        simp [hcd]
    constructor
    · unfold commitGroups
      rw [List.filter_append, hfilterdev, List.nil_append, hsingle]
      rfl
    · intro p hp hcp
      unfold commitGroups at hp
      rcases List.mem_append.mp hp with hdev | hbuild
      · by_cases hdcE : dc.isEmpty
        · rw [if_pos hdcE] at hdev
          cases hdev
        · rw [if_neg hdcE] at hdev
          have he := List.mem_singleton.mp hdev
          subst he
          exact absurd hcp hcd
      · obtain ⟨hcch2, hselp⟩ := sel_of_mem_buildBranchCommits hbuild hcp
        refine ⟨?_, ?_⟩
        · rw [if_neg hcd]
          rw [selectBranch, if_neg hcd] at hselp
          exact hselp
        · rw [buildBranchCommits_mem_spec hbuild]
          refine List.count_eq_one_of_mem (hch.filter _) ?_
          rw [← buildBranchCommits_mem_spec hbuild]
          exact hcp

/-- The containing-branch lookup of the C1 witness run. -/
def gbC1 : String → List String := fun c => if c = "b" then ["feature"] else []

theorem commit_in_exactly_one_group_witness :
    ((commitGroups ["a", "b"] ["a"] gbC1).filter (fun p => decide ("b" ∈ p.2))).length = 1 ∧
    ∀ p ∈ commitGroups ["a", "b"] ["a"] gbC1, "b" ∈ p.2 →
      ((if "b" ∈ ["a"] then p.1 = "develop"
        else (gbC1 "b").find? (fun b => decide (b ≠ "develop")) = some p.1) ∧
       p.2.count "b" = 1) :=
  commit_in_exactly_one_group ["a", "b"] ["a"] gbC1 "b" (by decide) (by decide) (by decide)

/-- C2: a commit outside the develop set whose containing-branch list is
empty or holds only "develop" is assigned to no group of the listing. -/
theorem dropped_commit_in_no_group (ch dc : List String) (gb : String → List String)
    (c : String) (hcd : c ∉ dc) (hbr : ∀ b ∈ gb c, b = "develop") :
    (commitGroups ch dc gb).filter (fun p => decide (c ∈ p.2)) = [] := by
  have hsel : selectBranch dc gb c = none := by
    rw [selectBranch, if_neg hcd]
    refine List.find?_eq_none.mpr ?_
    intro b hb
    simpa using hbr b hb
  refine List.filter_eq_nil_iff.mpr ?_
  intro p hp hcp
  have hcp2 : c ∈ p.2 := of_decide_eq_true hcp
  unfold commitGroups at hp
  rcases List.mem_append.mp hp with hdev | hbuild
  · by_cases hdcE : dc.isEmpty
    · rw [if_pos hdcE] at hdev
      cases hdev
    · rw [if_neg hdcE] at hdev
      have he := List.mem_singleton.mp hdev
      subst he
      exact hcd hcp2
  · have h := sel_of_mem_buildBranchCommits hbuild hcp2
    rw [hsel] at h
    cases h.2

/-- The containing-branch lookup of the C2 witness run: the commit "y" is
only on "develop" yet not in the develop set. -/
def gbC2 : String → List String := fun c => if c = "y" then ["develop"] else []

theorem dropped_commit_in_no_group_witness :
    (commitGroups ["x", "y"] ["x"] gbC2).filter (fun p => decide ("y" ∈ p.2)) = [] :=
  dropped_commit_in_no_group ["x", "y"] ["x"] gbC2 "y" (by decide) (by decide)

/-- C3: the listing is the rendering of `commitGroups`; the develop group is
first whenever the develop set is non-empty; the other group headers stand
in first-seen selection order; and each group holds exactly its commits in
input order (a sublist of the input). -/
theorem groups_ordered (ch dc : List String) (gb : String → List String)
    (gd : String → Option String) :
    (collect_commits_info ch dc gb gd =
      if ch.isEmpty then []
      else (commitGroups ch dc gb).foldl
        (fun acc p => acc ++ (if p.2.isEmpty then [] else renderGroup gd p.1 p.2)) []) ∧
    (dc ≠ [] → (commitGroups ch dc gb).head? = some ("develop", dc)) ∧
    ((buildBranchCommits ch dc gb).map Prod.fst =
      firstSeen (ch.filterMap (selectBranch dc gb))) ∧
    (∀ p ∈ buildBranchCommits ch dc gb,
      p.2 = ch.filter (fun c => decide (selectBranch dc gb c = some p.1)) ∧
        p.2.Sublist ch) := by
  refine ⟨collect_commits_info_eq_groups ch dc gb gd, ?_,
    buildBranchCommits_keys ch dc gb, ?_⟩
  · intro h
    cases dc with
    | nil => exact absurd rfl h
    | cons a l => simp [commitGroups]
  · intro p hp
    refine ⟨buildBranchCommits_mem_spec hp, ?_⟩
    rw [buildBranchCommits_mem_spec hp]
    exact List.filter_sublist ch

/-- C5: with a non-empty commit list and develop set, the listing opens with
the develop header, the develop detail lines, and the blank separator; when
every detail lookup fails the header and separator are still emitted. -/
theorem develop_group_emitted (ch dc : List String) (gb : String → List String)
    (gd : String → Option String) (hch : ch ≠ []) (hdc : dc ≠ []) :
    (∃ rest, collect_commits_info ch dc gb gd =
      "🔀 Branch: develop" :: (dc.filterMap gd ++ "" :: rest)) ∧
    ((∀ c ∈ dc, gd c = none) →
      ∃ rest, collect_commits_info ch dc gb gd = "🔀 Branch: develop" :: "" :: rest) := by
  have hch2 : ch.isEmpty = false := by simp [List.isEmpty_iff, hch]
  have hdc2 : dc.isEmpty = false := by simp [List.isEmpty_iff, hdc]
  have hmain : collect_commits_info ch dc gb gd =
      "🔀 Branch: develop" :: (dc.filterMap gd ++ "" ::
        (buildBranchCommits ch dc gb).foldl
          (fun acc p => acc ++ (if p.2.isEmpty then [] else renderGroup gd p.1 p.2)) []) := by
    unfold collect_commits_info renderGroup
    rw [hch2, hdc2]
    simp
  refine ⟨⟨_, hmain⟩, fun hnone =>
    ⟨(buildBranchCommits ch dc gb).foldl
        (fun acc p => acc ++ (if p.2.isEmpty then [] else renderGroup gd p.1 p.2)) [], ?_⟩⟩
  rw [hmain, List.filterMap_eq_nil_iff.mpr hnone, List.nil_append]

/-- The empty lookups of the C5 witness run. -/
def gbNone : String → List String := fun _ => []

/-- A detail lookup that fails on every commit. -/
def gdNone : String → Option String := fun _ => none

theorem develop_group_emitted_witness :
    (∃ rest, collect_commits_info ["a"] ["a"] gbNone gdNone =
      "🔀 Branch: develop" :: (["a"].filterMap gdNone ++ "" :: rest)) ∧
    ((∀ c ∈ ["a"], gdNone c = none) →
      ∃ rest, collect_commits_info ["a"] ["a"] gbNone gdNone =
        "🔀 Branch: develop" :: "" :: rest) :=
  develop_group_emitted ["a"] ["a"] gbNone gdNone (by decide) (by decide)

/-! ## Claims about the accessor and the run -/

theorem parseCommitList_spec (out : String) :
    "" ∉ parseCommitList out ∧ (parseCommitList out).Nodup ∧
      List.Sorted (fun a b => a ≤ b) (parseCommitList out) := by
  refine ⟨?_, ?_, List.sorted_insertionSort _ _⟩
  · intro hmem
    have hmem2 := (List.perm_insertionSort (fun a b => a ≤ b) _).mem_iff.mp hmem
    have hmem3 := List.mem_dedup.mp hmem2
    have hf := (List.mem_filter.mp hmem3).2
    simp at hf
  · exact ((List.perm_insertionSort _ _).nodup_iff).mpr (List.nodup_dedup _)

/-- C10: whatever text the commit-listing command produces, the parsed list
has no empty entry, no duplicate, and is sorted ascending — the iteration
order the classifier sees is sorted hash order. -/
theorem commits_by_author_sorted (run : List String → Option String)
    (emailOpt : Option String) (since untilS author : String) :
    "" ∉ get_commits_by_author run emailOpt since untilS author ∧
    (get_commits_by_author run emailOpt since untilS author).Nodup ∧
    List.Sorted (fun a b => a ≤ b)
      (get_commits_by_author run emailOpt since untilS author) := by
  unfold get_commits_by_author
  rcases run (logAllCmd since untilS (authorFilter emailOpt author)) with _ | out
  · exact ⟨by simp, List.nodup_nil, List.sorted_nil⟩
  · exact parseCommitList_spec out

/-! ## The refined failure model for the git queries

`subprocess.check_output` can fail two ways: the tool runs and exits
non-zero (`CalledProcessError`, the only exception the `except` clauses of
`_run_command` and of the query methods catch), or the git binary itself is
absent (`FileNotFoundError`, caught nowhere, so it propagates out of every
query method and crashes the run).  The coarse `Option`-valued oracle above
covers only the first; the refined model below distinguishes both. -/

/-- One `subprocess.check_output` call: its stripped stdout, a non-zero tool
exit (`CalledProcessError`), or a missing binary (`FileNotFoundError`). -/
inductive CmdOutcome where
  | out : String → CmdOutcome
  | fail : CmdOutcome
  | absent : CmdOutcome
deriving DecidableEq

/-- What one query method yields in the refined model: a value, a
`sys.exit` with a code, or an exception propagating uncaught. -/
inductive QueryResult (α : Type) where
  | value : α → QueryResult α
  | exited : Nat → QueryResult α
  | raised : QueryResult α
deriving DecidableEq

/-- `get_username` refined: `except subprocess.CalledProcessError` exits 1;
a `FileNotFoundError` is not caught and propagates. -/
def get_username_r (run : List String → CmdOutcome) : QueryResult String :=
  match run usernameCmd with
  | CmdOutcome.out s => QueryResult.value s
  | CmdOutcome.fail => QueryResult.exited 1
  | CmdOutcome.absent => QueryResult.raised

/-- `get_commits_by_author` refined: only `CalledProcessError` degrades to
the empty list; `FileNotFoundError` propagates. -/
def get_commits_by_author_r (run : List String → CmdOutcome)
    (emailOpt : Option String) (since untilS author : String) :
    QueryResult (List String) :=
  match run (logAllCmd since untilS (authorFilter emailOpt author)) with
  | CmdOutcome.out s => QueryResult.value (parseCommitList s)
  | CmdOutcome.fail => QueryResult.value []
  | CmdOutcome.absent => QueryResult.raised

/-- `get_develop_commits` refined: only `CalledProcessError` degrades to the
empty set; `FileNotFoundError` propagates. -/
def get_develop_commits_r (run : List String → CmdOutcome)
    (emailOpt : Option String) (since untilS author : String) :
    QueryResult (List String) :=
  match run (logDevelopCmd since untilS (authorFilter emailOpt author)) with
  | CmdOutcome.out s => QueryResult.value (parseCommitSet s)
  | CmdOutcome.fail => QueryResult.value []
  | CmdOutcome.absent => QueryResult.raised

/-- `get_commit_branches` refined: only `CalledProcessError` degrades to the
empty list; `FileNotFoundError` propagates. -/
def get_commit_branches_r (run : List String → CmdOutcome) (commit : String) :
    QueryResult (List String) :=
  match run (branchesCmd commit) with
  | CmdOutcome.out s => QueryResult.value (parseBranches s)
  | CmdOutcome.fail => QueryResult.value []
  | CmdOutcome.absent => QueryResult.raised

/-- `get_commit_details` refined: only `CalledProcessError` degrades to
`None`; `FileNotFoundError` propagates. -/
def get_commit_details_r (run : List String → CmdOutcome) (commit : String) :
    QueryResult (Option String) :=
  match run (detailsCmd commit) with
  | CmdOutcome.out s => QueryResult.value (some s)
  | CmdOutcome.fail => QueryResult.value none
  | CmdOutcome.absent => QueryResult.raised

/-- A refined oracle seen through the coarse model: `fail` becomes the
coarse `none`. -/
def coarseRun (run : List String → CmdOutcome) : List String → Option String :=
  fun cmd =>
    match run cmd with
    | CmdOutcome.out s => some s
    | _ => none

/-- As long as no command reports the binary absent, the refined methods
agree with the coarse ones, so the coarse trace model covers every run in
which git is installed. -/
theorem refined_agrees_with_coarse (run : List String → CmdOutcome)
    (emailOpt : Option String) (since untilS author commit : String)
    (habs : ∀ cmd, run cmd ≠ CmdOutcome.absent) :
    get_commits_by_author_r run emailOpt since untilS author =
      QueryResult.value (get_commits_by_author (coarseRun run) emailOpt since untilS author) ∧
    get_develop_commits_r run emailOpt since untilS author =
      QueryResult.value (get_develop_commits (coarseRun run) emailOpt since untilS author) ∧
    get_commit_branches_r run commit =
      QueryResult.value (get_commit_branches (coarseRun run) commit) ∧
    get_commit_details_r run commit =
      QueryResult.value (get_commit_details (coarseRun run) commit) := by
  refine ⟨?_, ?_, ?_, ?_⟩
  · cases h : run (logAllCmd since untilS (authorFilter emailOpt author)) with
    | out s => simp [get_commits_by_author_r, get_commits_by_author, coarseRun, h]
    | fail => simp [get_commits_by_author_r, get_commits_by_author, coarseRun, h]
    | absent => exact absurd h (habs _)
  · cases h : run (logDevelopCmd since untilS (authorFilter emailOpt author)) with
    | out s => simp [get_develop_commits_r, get_develop_commits, coarseRun, h]
    | fail => simp [get_develop_commits_r, get_develop_commits, coarseRun, h]
    | absent => exact absurd h (habs _)
  · cases h : run (branchesCmd commit) with
    | out s => simp [get_commit_branches_r, get_commit_branches, coarseRun, h]
    | fail => simp [get_commit_branches_r, get_commit_branches, coarseRun, h]
    | absent => exact absurd h (habs _)
  · cases h : run (detailsCmd commit) with
    | out s => simp [get_commit_details_r, get_commit_details, coarseRun, h]
    | fail => simp [get_commit_details_r, get_commit_details, coarseRun, h]
    | absent => exact absurd h (habs _)

/-- C7 counterexample: with the git binary absent every query raises the
uncaught `FileNotFoundError`: `get_commits_by_author` propagates the
exception instead of returning the empty list the claim asserts, and the
other queries raise likewise. -/
theorem query_failure_counterexample :
    get_commits_by_author_r (fun _ => CmdOutcome.absent) none "s" "u" "a" =
      QueryResult.raised ∧
    QueryResult.raised ≠ QueryResult.value ([] : List String) ∧
    get_develop_commits_r (fun _ => CmdOutcome.absent) none "s" "u" "a" =
      QueryResult.raised ∧
    get_commit_branches_r (fun _ => CmdOutcome.absent) "c" = QueryResult.raised ∧
    get_commit_details_r (fun _ => CmdOutcome.absent) "c" = QueryResult.raised ∧
    get_username_r (fun _ => CmdOutcome.absent) = QueryResult.raised := by
  refine ⟨rfl, ?_, rfl, rfl, rfl, rfl⟩
  intro h
  cases h

/-- C7 amended: when a query's command runs and exits non-zero
(`CalledProcessError`) the identity lookup ends the run with exit code 1
while the four other queries degrade to an empty list, empty set, or
`None`; but a missing git binary (`FileNotFoundError`) is caught by no
handler, so every query method propagates the exception and the run
crashes instead of degrading. -/
theorem query_failures_refined (w : World) (run : List String → CmdOutcome)
    (emailOpt : Option String) (since untilS author commit : String) (use_gpt : Bool) :
    (run usernameCmd = CmdOutcome.fail → get_username_r run = QueryResult.exited 1) ∧
    (w.run usernameCmd = none →
      generate_report w emailOpt since untilS use_gpt =
        ([Event.git usernameCmd], Outcome.exited 1)) ∧
    (run (logAllCmd since untilS (authorFilter emailOpt author)) = CmdOutcome.fail →
      get_commits_by_author_r run emailOpt since untilS author = QueryResult.value []) ∧
    (run (logDevelopCmd since untilS (authorFilter emailOpt author)) = CmdOutcome.fail →
      get_develop_commits_r run emailOpt since untilS author = QueryResult.value []) ∧
    (run (branchesCmd commit) = CmdOutcome.fail →
      get_commit_branches_r run commit = QueryResult.value []) ∧
    (run (detailsCmd commit) = CmdOutcome.fail →
      get_commit_details_r run commit = QueryResult.value none) ∧
    (run usernameCmd = CmdOutcome.absent → get_username_r run = QueryResult.raised) ∧
    (run (logAllCmd since untilS (authorFilter emailOpt author)) = CmdOutcome.absent →
      get_commits_by_author_r run emailOpt since untilS author = QueryResult.raised) ∧
    (run (logDevelopCmd since untilS (authorFilter emailOpt author)) = CmdOutcome.absent →
      get_develop_commits_r run emailOpt since untilS author = QueryResult.raised) ∧
    (run (branchesCmd commit) = CmdOutcome.absent →
      get_commit_branches_r run commit = QueryResult.raised) ∧
    (run (detailsCmd commit) = CmdOutcome.absent →
      get_commit_details_r run commit = QueryResult.raised) := by
  refine ⟨?_, ?_, ?_, ?_, ?_, ?_, ?_, ?_, ?_, ?_, ?_⟩
  · intro h
    simp [get_username_r, h]
  · intro h
    simp [generate_report, get_username, h]
  · intro h
    simp [get_commits_by_author_r, h]
  · intro h
    simp [get_develop_commits_r, h]
  · intro h
    simp [get_commit_branches_r, h]
  · intro h
    simp [get_commit_details_r, h]
  · intro h
    simp [get_username_r, h]
  · intro h
    simp [get_commits_by_author_r, h]
  · intro h
    simp [get_develop_commits_r, h]
  · intro h
    simp [get_commit_branches_r, h]
  · intro h
    simp [get_commit_details_r, h]

/-- C4: when the author query comes back empty, collection stops after that
single query (no develop, branch or detail query) and the report run ends
normally with no template load, no print and no summarization call. -/
theorem empty_commits_short_circuit (w : World) (emailOpt : Option String)
    (since untilS author : String) (use_gpt : Bool)
    (hu : get_username w.run = Except.ok author)
    (hempty : get_commits_by_author w.run emailOpt since untilS author = []) :
    collect_commits_info_run w.run emailOpt since untilS author =
      ([], [Event.git (logAllCmd since untilS (authorFilter emailOpt author))]) ∧
    generate_report w emailOpt since untilS use_gpt =
      ([Event.git usernameCmd,
        Event.git (logAllCmd since untilS (authorFilter emailOpt author))],
       Outcome.normal) := by
  have hcoll : collect_commits_info_run w.run emailOpt since untilS author =
      ([], [Event.git (logAllCmd since untilS (authorFilter emailOpt author))]) := by
    unfold collect_commits_info_run
    rw [hempty]
    rfl
  refine ⟨hcoll, ?_⟩
  unfold generate_report
  rw [hu]
  simp [hcoll]

/-- The world of the C4 witness run: the author log is empty. -/
def wEmpty : World where
  run := fun cmd => if cmd = usernameCmd then some "alice" else some ""
  template := none
  gpt := fun _ => none
  apiKey := some "key"

theorem empty_commits_short_circuit_witness :
    collect_commits_info_run wEmpty.run none "s" "u" "alice" =
      ([], [Event.git (logAllCmd "s" "u" (authorFilter none "alice"))]) ∧
    generate_report wEmpty none "s" "u" false =
      ([Event.git usernameCmd, Event.git (logAllCmd "s" "u" (authorFilter none "alice"))],
       Outcome.normal) :=
  empty_commits_short_circuit wEmpty none "s" "u" "alice" false rfl (by decide)

/-- The world of the C8 runs: one commit "a", also on develop, details
available, template absent. -/
def w8 : World where
  run := fun cmd =>
    if cmd = usernameCmd then some "alice"
    else if cmd = logAllCmd "s" "u" "alice" then some "a"
    else if cmd = logDevelopCmd "s" "u" "alice" then some "a"
    else if cmd = detailsCmd "a" then some "• a 2024-01-01 work"
    else none
  template := none
  gpt := fun _ => none
  apiKey := some "key"

/-- C8 counterexample: with the template absent the run does exit non-zero,
but only after a commit-detail query was already attempted — the detail
event is in the trace before the failed template load, contradicting
"termination occurs before any commit-detail query". -/
theorem template_absent_counterexample :
    (generate_report w8 none "s" "u" false).2 = Outcome.exited 1 ∧
    Event.git (detailsCmd "a") ∈ (generate_report w8 none "s" "u" false).1 := by
  constructor
  · decide
  · decide

/-- C8 amended: an absent template is fatal only when the collected listing
is non-empty, and the failed load is the run's last event — it happens after
`collect_commits_info` has already issued its detail queries, not before. -/
theorem template_absent_amended (w : World) (emailOpt : Option String)
    (since untilS author : String) (use_gpt : Bool)
    (hu : get_username w.run = Except.ok author)
    (ht : w.template = none)
    (hne : (collect_commits_info_run w.run emailOpt since untilS author).1 ≠ []) :
    generate_report w emailOpt since untilS use_gpt =
      ((Event.git usernameCmd ::
          (collect_commits_info_run w.run emailOpt since untilS author).2)
        ++ [Event.loadTemplate], Outcome.exited 1) := by
  have hne2 : (collect_commits_info_run w.run emailOpt since untilS author).1.isEmpty
      = false := by
    simp [List.isEmpty_iff, hne]
  unfold generate_report
  rw [hu, ht]
  simp [hne2]

theorem template_absent_amended_witness :
    generate_report w8 none "s" "u" false =
      ((Event.git usernameCmd :: (collect_commits_info_run w8.run none "s" "u" "alice").2)
        ++ [Event.loadTemplate], Outcome.exited 1) :=
  template_absent_amended w8 none "s" "u" "alice" false rfl rfl (by decide)

/-- The world of the C9 witness run: one commit on develop, a template, and
a summarization call that fails. -/
def w9 : World where
  run := fun cmd =>
    if cmd = usernameCmd then some "alice"
    else if cmd = logAllCmd "s" "u" "alice" then some "a"
    else if cmd = logDevelopCmd "s" "u" "alice" then some "a"
    else if cmd = detailsCmd "a" then some "• a 2024-01-01 work"
    else none
  template := some "report: \x7bcommits_text\x7d"
  gpt := fun _ => none
  apiKey := some "key"

/-- C9: a failed summarization call is caught: the client and the generator
each log the failure, nothing is printed after it, and the run ends
normally (no crash, no non-zero exit, no fallback output path). -/
theorem gpt_failure_caught (w : World) (emailOpt : Option String)
    (since untilS author tmpl : String)
    (hu : get_username w.run = Except.ok author)
    (hne : (collect_commits_info_run w.run emailOpt since untilS author).1 ≠ [])
    (ht : w.template = some tmpl)
    (hg : w.gpt (assemblePrompt tmpl
      (collect_commits_info_run w.run emailOpt since untilS author).1) = none) :
    generate_report w emailOpt since untilS true =
      ((Event.git usernameCmd ::
          (collect_commits_info_run w.run emailOpt since untilS author).2)
        ++ [Event.loadTemplate, Event.print promptHeaderOut,
            Event.print (assemblePrompt tmpl
              (collect_commits_info_run w.run emailOpt since untilS author).1),
            Event.print promptHeaderIn,
            Event.gptCall (assemblePrompt tmpl
              (collect_commits_info_run w.run emailOpt since untilS author).1),
            Event.logError, Event.logError], Outcome.normal) := by
  have hne2 : (collect_commits_info_run w.run emailOpt since untilS author).1.isEmpty
      = false := by
    simp [List.isEmpty_iff, hne]
  unfold generate_report chatgpt_generate_report
  rw [hu, ht]
  simp [hne2, hg]

theorem gpt_failure_caught_witness :
    generate_report w9 none "s" "u" true =
      ((Event.git usernameCmd :: (collect_commits_info_run w9.run none "s" "u" "alice").2)
        ++ [Event.loadTemplate, Event.print promptHeaderOut,
            Event.print (assemblePrompt "report: \x7bcommits_text\x7d"
              (collect_commits_info_run w9.run none "s" "u" "alice").1),
            Event.print promptHeaderIn,
            Event.gptCall (assemblePrompt "report: \x7bcommits_text\x7d"
              (collect_commits_info_run w9.run none "s" "u" "alice").1),
            Event.logError, Event.logError], Outcome.normal) :=
  gpt_failure_caught w9 none "s" "u" "alice" "report: \x7bcommits_text\x7d"
    rfl (by decide) rfl rfl

/-- The world of the C6 runs: a healthy repository with no commits for the
day, and no summarization credential. -/
def w6 : World where
  run := fun cmd => if cmd = usernameCmd then some "alice" else some ""
  template := none
  gpt := fun _ => none
  apiKey := none

/-- C6 counterexample: with the credential absent, a run that does not
request summarization still exits 1 (the client is built unconditionally at
generator construction); the same run with a credential ends normally. -/
theorem credential_absent_counterexample :
    (main_run w6 none "s" "u" false).2 = Outcome.exited 1 ∧
    (main_run { w6 with apiKey := some "key" } none "s" "u" false).2 = Outcome.normal := by
  constructor
  · decide
  · decide

/-- C6 amended: an absent (or empty, Python-falsy) credential aborts every
run with exit code 1 before any git query, whether or not summarization was
requested. -/
theorem credential_absent_always_fatal (w : World) (emailOpt : Option String)
    (since untilS : String) (use_gpt : Bool)
    (hk : w.apiKey = none ∨ w.apiKey = some "") :
    main_run w emailOpt since untilS use_gpt = ([], Outcome.exited 1) := by
  unfold main_run chatGPTClientInit
  rcases hk with hk | hk
  · rw [hk]
  · rw [hk]
    rfl

theorem credential_absent_always_fatal_witness :
    main_run w6 none "s" "u" true = ([], Outcome.exited 1) :=
  credential_absent_always_fatal w6 none "s" "u" true (Or.inl rfl)
